import Mathlib

/-!
Verification of the CSV-processing pipeline of
`notebooks/pm-a-new-function_filled.ipynb`.

The notebook builds, cell by cell, a pipeline over an air-quality table:

* `df.dropna(how='any', axis=0)` — drop every row with a missing value in
  any column;
* `df['ReadingDateTime'].astype('datetime64')` and
  `df.set_index('ReadingDateTime')` — parse and index by the timestamp;
* `pd.pivot_table(df, index=['ReadingDateTime'], columns=['Species'],
  values='Value')` — long-to-wide reshape; pandas keeps one row per
  distinct timestamp and one column per distinct species (both sorted
  ascending) and aggregates duplicate (timestamp, species) cells with the
  arithmetic mean (the `pivot_table` default);
* `pivoted.resample('W', label='right').mean()` — weekly buckets,
  right-closed and labelled by their right edge, aggregated by the mean of
  the non-missing cells, spanning the whole observed time range;
* `weekly_mean['Hazardous'] = weekly_mean['NOX'] > 50.` — a derived flag;
  in pandas a missing (NaN) cell compares `False` against the threshold;
* write `output_folder / 'WeeklyMeanAQ.csv'`.

Embedding choices: timestamps are integers (days); `datetime64` parsing is
the identity on an already-parsed `Option Int` field, so rows carry
`Option`-valued columns and `dropna` filters on their presence.  Weekly
buckets are the right-closed intervals `(b - 7, b]` whose right edges `b`
are the multiples of 7, matching `resample('W', label='right')` up to the
choice of week anchor.  Numeric values are rationals, so the arithmetic
means of the pivot and resample steps are exact.
-/

namespace AQ

/-- One row of the input table: the `ReadingDateTime`, `Species` and
`Value` columns the pipeline uses, plus any other columns (`Site`,
`Units`, ...), each possibly missing. -/
structure Record where
  timestamp : Option Int
  species : Option String
  value : Option Rat
  others : List (Option Rat)
deriving DecidableEq

/-- A row survives `df.dropna(how='any', axis=0)` iff every column is
populated. -/
def fullyPopulated (r : Record) : Bool :=
  r.timestamp.isSome && r.species.isSome && r.value.isSome &&
    r.others.all Option.isSome

/-- `df.dropna(how='any', axis=0)`. -/
def dropna (tbl : List Record) : List Record :=
  tbl.filter fullyPopulated

/-- The surviving rows as (timestamp, species, value) triples — the data
visible to `pivot_table` after `dropna`, `astype('datetime64')` and
`set_index('ReadingDateTime')`. -/
def cleanTriples (tbl : List Record) : List (Int × String × Rat) :=
  (dropna tbl).filterMap (fun r =>
    match r.timestamp, r.species, r.value with
    | some t, some s, some v => some (t, s, v)
    | _, _, _ => none)

/-- The values contributing to the wide-table cell at (timestamp `t`,
species `s`). -/
def valsAt (tbl : List Record) (t : Int) (s : String) : List Rat :=
  ((cleanTriples tbl).filter (fun x => x.1 == t && x.2.1 == s)).map
    (fun x => x.2.2)

/-- The arithmetic mean pandas uses to aggregate: `none` on an empty list
(a NaN cell), otherwise sum divided by length. -/
def listMean : List Rat → Option Rat
  | [] => none
  | v :: vs => some ((v :: vs).sum / ((v :: vs).length : Rat))

/-- A cell of the wide table produced by `pd.pivot_table(df,
index=['ReadingDateTime'], columns=['Species'], values='Value')`: the mean
of the values recorded for that (timestamp, species) pair, missing when
there are none. -/
def wideCell (tbl : List Record) (t : Int) (s : String) : Option Rat :=
  listMean (valsAt tbl t s)

/-- The row index of the wide table: the distinct surviving timestamps,
ascending. -/
def wideTimes (tbl : List Record) : List Int :=
  List.insertionSort (· ≤ ·) (((cleanTriples tbl).map (fun x => x.1)).dedup)

/-- The columns of the wide table: the distinct surviving species,
ascending. -/
def wideCols (tbl : List Record) : List String :=
  List.insertionSort (· ≤ ·) (((cleanTriples tbl).map (fun x => x.2.1)).dedup)

/-- The right (closing) edge of the weekly bucket containing time `t`:
the least multiple of 7 that is `≥ t`, so `t ∈ (bucketOf t - 7, bucketOf t]`.
This is `resample('W', label='right')`'s bucket labelling. -/
def bucketOf (t : Int) : Int :=
  7 * ((t + 6) / 7)

/-- The row index of the resampled table: one bucket label per week from
the bucket of the earliest surviving timestamp to the bucket of the
latest, inclusive — also the buckets no reading falls in. -/
def buckets (tbl : List Record) : List Int :=
  match (wideTimes tbl).head?, (wideTimes tbl).getLast? with
  | some t0, some t1 =>
      (List.range (((bucketOf t1 - bucketOf t0) / 7).toNat + 1)).map
        (fun i : Nat => bucketOf t0 + 7 * (i : Int))
  | _, _ => []

/-- The non-missing wide-table cells of column `s` falling in the bucket
labelled `b` — what `resample('W').mean()` averages for that cell. -/
def bucketVals (tbl : List Record) (b : Int) (s : String) : List Rat :=
  ((wideTimes tbl).filter (fun t => bucketOf t == b)).filterMap
    (fun t => wideCell tbl t s)

/-- A cell of `weekly_mean = pivoted.resample('W', label='right').mean()`. -/
def rcell (tbl : List Record) (b : Int) (s : String) : Option Rat :=
  listMean (bucketVals tbl b s)

/-- The derived column `weekly_mean['Hazardous'] = weekly_mean['NOX'] > 50.`;
in pandas a missing (NaN) aggregate compares `False`. -/
def hazardous (tbl : List Record) (b : Int) : Bool :=
  match rcell tbl b "NOX" with
  | some v => decide ((50 : Rat) < v)
  | none => false

/-- The resampled table the pipeline writes: the weekly index, the species
columns, the aggregated cells and the derived `Hazardous` column. -/
structure Resampled where
  index : List Int
  cols : List String
  cell : Int → String → Option Rat
  hazardFlag : Int → Bool

/-- The whole in-memory pipeline of the notebook cells. -/
def pipeline (tbl : List Record) : Resampled :=
  { index := buckets tbl
    cols := wideCols tbl
    cell := rcell tbl
    hazardFlag := hazardous tbl }

/-- The fixed output file name `'WeeklyMeanAQ.csv'`. -/
def fixedName : String := "WeeklyMeanAQ.csv"

/-- Modelled from the spec: the reusable function `process_csv_file` is a
stub (`pass`) in the notebook and its implementation
(`process_pipeline/processor.py`) is not in the sources; per the spec's
contract `process(input_path, output_folder, fill_value) -> output_path`
it runs the notebook's pipeline on the parsed input table and returns the
path of the file it wrote, `output_folder` joined with the fixed name.
The file system is abstracted: the first argument is the parsed input
table, a path is its list of components, and the result pairs the written
table with the returned path.  The notebook cells apply no fill step, so
` fill_with` is unused (the spec flags its semantics as an open
question). -/
def process_csv_file (input : List Record) (output_folder : List String)
    ( fill_with : Option Rat) : Resampled × List String :=
  (pipeline input, output_folder ++ [fixedName])

/-- A fully-populated row with no extra columns. -/
def mkRow (t : Int) (s : String) (v : Rat) : Record :=
  ⟨some t, some s, some v, []⟩

/-- The spec's worked example: four readings, all in one weekly bucket. -/
def exampleWeek : List Record :=
  [mkRow 1 "NOX" 40, mkRow 1 "PM10" 10, mkRow 2 "NOX" 60, mkRow 2 "PM10" 12]

/-- The same four readings in a shuffled order. -/
def exampleWeekShuffled : List Record :=
  [mkRow 2 "PM10" 12, mkRow 1 "NOX" 40, mkRow 2 "NOX" 60, mkRow 1 "PM10" 10]

/-- Two surviving readings sharing one (timestamp, species) pair. -/
def dupRows : List Record :=
  [mkRow 1 "NOX" 0, mkRow 1 "NOX" 100]

/-- A table with no NOX reading at all. -/
def noNox : List Record :=
  [mkRow 1 "PM10" 5]

/-- A one-row table. -/
def oneRow : List Record :=
  [mkRow 1 "NOX" 40]

/-- Modelled from the spec: the conceptual inverse of the pivot — unpivot
(melt) the wide table back to long format, one (timestamp, species, value)
triple per non-missing cell. -/
def unpivot (tbl : List Record) : List (Int × String × Rat) :=
  (wideTimes tbl).flatMap (fun t =>
    (wideCols tbl).filterMap (fun s =>
      (wideCell tbl t s).map (fun v => (t, s, v))))

lemma wideCell_exampleWeek_nox1 : wideCell exampleWeek 1 "NOX" = some 40 := by
  have h : valsAt exampleWeek 1 "NOX" = [40] := rfl
  simp only [wideCell, h, listMean]
  norm_num

lemma wideCell_exampleWeek_nox2 : wideCell exampleWeek 2 "NOX" = some 60 := by
  have h : valsAt exampleWeek 2 "NOX" = [60] := rfl
  simp only [wideCell, h, listMean]
  norm_num

lemma wideCell_exampleWeek_pm1 : wideCell exampleWeek 1 "PM10" = some 10 := by
  have h : valsAt exampleWeek 1 "PM10" = [10] := rfl
  simp only [wideCell, h, listMean]
  norm_num

lemma wideCell_exampleWeek_pm2 : wideCell exampleWeek 2 "PM10" = some 12 := by
  have h : valsAt exampleWeek 2 "PM10" = [12] := rfl
  simp only [wideCell, h, listMean]
  norm_num

lemma bucketVals_exampleWeek_nox : bucketVals exampleWeek 7 "NOX" = [40, 60] := by
  have hf : (wideTimes exampleWeek).filter (fun t => bucketOf t == 7) = [1, 2] := rfl
  simp only [bucketVals, hf, List.filterMap_cons, List.filterMap_nil,
    wideCell_exampleWeek_nox1, wideCell_exampleWeek_nox2]

lemma bucketVals_exampleWeek_pm : bucketVals exampleWeek 7 "PM10" = [10, 12] := by
  have hf : (wideTimes exampleWeek).filter (fun t => bucketOf t == 7) = [1, 2] := rfl
  simp only [bucketVals, hf, List.filterMap_cons, List.filterMap_nil,
    wideCell_exampleWeek_pm1, wideCell_exampleWeek_pm2]

lemma rcell_exampleWeek_nox : rcell exampleWeek 7 "NOX" = some 50 := by
  simp only [rcell, bucketVals_exampleWeek_nox, listMean]
  norm_num

lemma rcell_exampleWeek_pm : rcell exampleWeek 7 "PM10" = some 11 := by
  simp only [rcell, bucketVals_exampleWeek_pm, listMean]
  norm_num

lemma wideCell_dupRows_nox : wideCell dupRows 1 "NOX" = some 50 := by
  have h : valsAt dupRows 1 "NOX" = [0, 100] := rfl
  simp only [wideCell, h, listMean]
  norm_num

lemma unpivot_dupRows : unpivot dupRows = [(1, "NOX", 50)] := by
  have ht : wideTimes dupRows = [1] := rfl
  have hc : wideCols dupRows = ["NOX"] := rfl
  simp [unpivot, ht, hc, wideCell_dupRows_nox]

/-- A nonempty list of equal rationals has that value as its mean. -/
lemma listMean_of_all_eq {v : Rat} {vs : List Rat} (hne : vs ≠ [])
    (hall : ∀ u ∈ vs, u = v) : listMean vs = some v := by
  cases vs with
  | nil => exact absurd rfl hne
  | cons w ws =>
    have hlen : (((w :: ws).length : Nat) : Rat) ≠ 0 := by
      simp only [List.length_cons]
      positivity
    have hsum : (w :: ws).sum = (w :: ws).length • v :=
      List.sum_eq_card_nsmul _ v hall
    simp only [listMean, hsum, nsmul_eq_mul]
    rw [mul_div_cancel_left₀ _ hlen]

/-- C1: for every input, `process_csv_file` returns `output_folder` joined
with the fixed file name `'WeeklyMeanAQ.csv'` as the path of the written
file. -/
theorem process_csv_file_returns_output_path (input : List Record)
    (output_folder : List String) ( fill_with : Option Rat) :
    (process_csv_file input output_folder fill_with).2 =
      output_folder ++ [fixedName] ∧ fixedName = "WeeklyMeanAQ.csv" :=
  ⟨rfl, rfl⟩

/-- C5: dropping the rows with a missing value in any column is
idempotent — re-cleaning the cleaned table changes neither the rows nor,
a fortiori, the row count. -/
theorem dropna_idempotent (tbl : List Record) :
    dropna (dropna tbl) = dropna tbl := by
  simp [dropna, List.filter_filter]

/-- C10: a bucket whose NOX aggregate is missing is never flagged
hazardous. -/
theorem hazardous_false_of_missing_nox (tbl : List Record) (b : Int)
    (h : rcell tbl b "NOX" = none) : hazardous tbl b = false := by
  simp [hazardous, h]

/-- Witness for C10 at a concrete table with no NOX readings. -/
theorem hazardous_false_of_missing_nox_holds :
    hazardous noNox 7 = false :=
  hazardous_false_of_missing_nox noNox 7 rfl

/-- C2: the derived `Hazardous` flag is true exactly when the NOX weekly
mean exists and exceeds 50, and on the spec's example (readings 40 and 60
for NOX, 10 and 12 for PM10, all in one weekly bucket) the output row has
NOX mean 50, PM10 mean 11 and `Hazardous = false` — the boundary mean of
exactly 50 is not flagged. -/
theorem hazardous_iff_nox_mean_above_threshold :
    (∀ (tbl : List Record) (b : Int),
      hazardous tbl b = true ↔
        ∃ v, rcell tbl b "NOX" = some v ∧ (50 : Rat) < v) ∧
    rcell exampleWeek 7 "NOX" = some 50 ∧
    rcell exampleWeek 7 "PM10" = some 11 ∧
    hazardous exampleWeek 7 = false := by
  refine ⟨?_, rcell_exampleWeek_nox, rcell_exampleWeek_pm, ?_⟩
  · intro tbl b
    cases h : rcell tbl b "NOX" with
    | none => simp [hazardous, h]
    | some v => simp [hazardous, h]
  · have : ¬ ((50 : Rat) < 50) := by norm_num
    simp [hazardous, rcell_exampleWeek_nox, this]

/-- C9: `pivot_table` does not keep duplicate (timestamp, species)
records as distinct entries — the wide-table cell is the arithmetic mean
of the duplicate values (the pandas default aggregation); concretely, two
NOX readings 0 and 100 at the same timestamp become the single cell 50. -/
theorem pivot_table_aggregates_duplicates_with_mean :
    (∀ (tbl : List Record) (t : Int) (s : String) (v : Rat) (vs : List Rat),
      valsAt tbl t s = v :: vs →
      wideCell tbl t s = some ((v :: vs).sum / ((v :: vs).length : Rat))) ∧
    wideTimes dupRows = [1] ∧ valsAt dupRows 1 "NOX" = [0, 100] ∧
    wideCell dupRows 1 "NOX" = some 50 := by
  refine ⟨?_, rfl, rfl, wideCell_dupRows_nox⟩
  intro tbl t s v vs h
  simp only [wideCell, h, listMean]

/-- Witness for C9 at the concrete duplicate table. -/
theorem pivot_table_aggregates_duplicates_with_mean_inst :
    wideCell dupRows 1 "NOX" =
      some ((((0 : Rat) :: [100]).sum) / ((((0 : Rat) :: [100]).length : Rat))) :=
  pivot_table_aggregates_duplicates_with_mean.1 dupRows 1 "NOX" 0 [100] rfl

/-- C3 as stated fails on the code: when two surviving records share a
(timestamp, species) pair with different values, the pivot averages them,
so the round trip loses the original triples — here the triple
(1, "NOX", 0) survives the missing-row filter but is absent from the
unpivoted table, which holds only the mean (1, "NOX", 50). -/
theorem pivot_unpivot_loses_duplicate_triples :
    (1, "NOX", (0 : Rat)) ∈ cleanTriples dupRows ∧
    (1, "NOX", (0 : Rat)) ∉ unpivot dupRows := by
  refine ⟨by decide, ?_⟩
  rw [unpivot_dupRows]
  decide

/-- C3 amended: when no two surviving records share a (timestamp,
species) pair with different values, pivoting and then unpivoting
preserves every (timestamp, species, value) triple present after the
missing-row filter. -/
theorem pivot_unpivot_preserves_unique_triples (tbl : List Record)
    (h : ∀ x ∈ cleanTriples tbl, ∀ y ∈ cleanTriples tbl,
      x.1 = y.1 → x.2.1 = y.2.1 → x.2.2 = y.2.2) :
    ∀ x ∈ cleanTriples tbl, x ∈ unpivot tbl := by
  rintro ⟨t, s, v⟩ hx
  have ht : t ∈ wideTimes tbl := by
    simp only [wideTimes, List.mem_insertionSort, List.mem_dedup, List.mem_map]
    exact ⟨(t, s, v), hx, rfl⟩
  have hs : s ∈ wideCols tbl := by
    simp only [wideCols, List.mem_insertionSort, List.mem_dedup, List.mem_map]
    exact ⟨(t, s, v), hx, rfl⟩
  have hvmem : v ∈ valsAt tbl t s := by
    simp only [valsAt, List.mem_map, List.mem_filter]
    exact ⟨(t, s, v), ⟨hx, by simp⟩, rfl⟩
  have hall : ∀ u ∈ valsAt tbl t s, u = v := by
    intro u hu
    simp only [valsAt, List.mem_map, List.mem_filter, Bool.and_eq_true,
      beq_iff_eq] at hu
    obtain ⟨y, ⟨hy, hy1, hy2⟩, rfl⟩ := hu
    exact h y hy (t, s, v) hx hy1 hy2
  have hcell : wideCell tbl t s = some v := by
    simp only [wideCell]
    exact listMean_of_all_eq (List.ne_nil_of_mem hvmem) hall
  simp only [unpivot, List.mem_flatMap, List.mem_filterMap]
  exact ⟨t, ht, s, hs, by rw [hcell]; rfl⟩

/-- Witness for the amended C3 at a one-row table. -/
theorem pivot_unpivot_preserves_unique_triples_inst :
    (1, "NOX", (40 : Rat)) ∈ unpivot oneRow :=
  pivot_unpivot_preserves_unique_triples oneRow (by decide) (1, "NOX", 40)
    (by decide)

/-- C6: resampling aggregates into fixed weekly buckets by arithmetic
mean, labelled by the right (closing) edge: a time `t` falls in the
bucket labelled `b` exactly when `b` is week-aligned and `t` lies in the
right-closed interval `(b - 7, b]`, and a bucket's nonempty cell is the
sum of the contributing values divided by their count. -/
theorem resample_weekly_mean_right_labelled :
    (∀ t b : Int, bucketOf t = b ↔ ((7 : Int) ∣ b ∧ b - 7 < t ∧ t ≤ b)) ∧
    (∀ (tbl : List Record) (b : Int) (s : String) (v : Rat) (vs : List Rat),
      bucketVals tbl b s = v :: vs →
      rcell tbl b s = some ((v :: vs).sum / ((v :: vs).length : Rat))) := by
  constructor
  · intro t b
    constructor
    · rintro rfl
      have hdm := Int.ediv_add_emod (t + 6) 7
      have hm0 := Int.emod_nonneg (t + 6) (by norm_num : (7 : Int) ≠ 0)
      have hm1 := Int.emod_lt_of_pos (t + 6) (by norm_num : (0 : Int) < 7)
      refine ⟨dvd_mul_right 7 _, ?_, ?_⟩ <;> simp only [bucketOf] <;> omega
    · rintro ⟨⟨k, rfl⟩, h1, h2⟩
      simp only [bucketOf]
      omega
  · intro tbl b s v vs h
    simp only [rcell, h, listMean]

/-- Witness for C6: day 3 lies in the right-closed week labelled 7, and
the example's NOX bucket is its values' mean. -/
theorem resample_weekly_mean_right_labelled_inst :
    (bucketOf 3 = 7 ↔ ((7 : Int) ∣ 7 ∧ (7 : Int) - 7 < 3 ∧ (3 : Int) ≤ 7)) ∧
    rcell exampleWeek 7 "NOX" =
      some ((((40 : Rat) :: [60]).sum) / ((((40 : Rat) :: [60]).length : Rat))) :=
  ⟨resample_weekly_mean_right_labelled.1 3 7,
   resample_weekly_mean_right_labelled.2 exampleWeek 7 "NOX" 40 [60]
     bucketVals_exampleWeek_nox⟩

lemma buckets_eq (tbl : List Record) {t0 t1 : Int}
    (h0 : (wideTimes tbl).head? = some t0)
    (h1 : (wideTimes tbl).getLast? = some t1) :
    buckets tbl =
      (List.range (((bucketOf t1 - bucketOf t0) / 7).toNat + 1)).map
        (fun i : Nat => bucketOf t0 + 7 * (i : Int)) := by
  simp only [buckets, h0, h1]

/-- A fully-populated row of the input contributes its triple to the
cleaned long table. -/
lemma cleanTriples_of_full {tbl : List Record} {r : Record} (hr : r ∈ tbl)
    (hf : fullyPopulated r = true) :
    ∃ t s v, (t, s, v) ∈ cleanTriples tbl ∧ r.timestamp = some t := by
  have hf' := hf
  simp only [fullyPopulated, Bool.and_eq_true, Option.isSome_iff_exists] at hf'
  obtain ⟨⟨⟨⟨t, ht⟩, s, hs⟩, v, hv⟩, -⟩ := hf'
  refine ⟨t, s, v, ?_, ht⟩
  simp only [cleanTriples, List.mem_filterMap]
  exact ⟨r, List.mem_filter.mpr ⟨hr, hf⟩, by rw [ht, hs, hv]⟩

lemma mem_wideTimes_of_triple {tbl : List Record} {t : Int} {s : String}
    {v : Rat} (h : (t, s, v) ∈ cleanTriples tbl) : t ∈ wideTimes tbl := by
  simp only [wideTimes, List.mem_insertionSort, List.mem_dedup, List.mem_map]
  exact ⟨(t, s, v), h, rfl⟩

/-- C8: if the input has at least one fully-populated row, every row
surviving the drop step has a present timestamp, and the written table is
nonempty with its rows keyed by actual (never missing) bucket labels. -/
theorem output_has_no_missing_timestamps (tbl : List Record)
    (h : ∃ r ∈ tbl, fullyPopulated r = true) :
    (∀ r ∈ dropna tbl, r.timestamp.isSome = true) ∧ buckets tbl ≠ [] := by
  constructor
  · intro r hr
    have hfull := (List.mem_filter.mp hr).2
    simp only [fullyPopulated, Bool.and_eq_true] at hfull
    exact hfull.1.1.1
  · obtain ⟨r, hr, hf⟩ := h
    obtain ⟨t, s, v, htr, -⟩ := cleanTriples_of_full hr hf
    have hne : wideTimes tbl ≠ [] :=
      List.ne_nil_of_mem (mem_wideTimes_of_triple htr)
    cases hl : wideTimes tbl with
    | nil => exact absurd hl hne
    | cons x xs =>
      have h0 : (wideTimes tbl).head? = some x := by rw [hl]; rfl
      have h1 : (wideTimes tbl).getLast? =
          some ((x :: xs).getLast (by simp)) := by
        rw [hl]
        exact List.getLast?_eq_getLast _ _
      rw [buckets_eq tbl h0 h1]
      intro hcontra
      have hlen := congrArg List.length hcontra
      simp at hlen

/-- Witness for C8 at the example table. -/
theorem output_has_no_missing_timestamps_inst :
    buckets exampleWeek ≠ [] :=
  (output_has_no_missing_timestamps exampleWeek
    ⟨mkRow 1 "NOX" 40, by decide, by decide⟩).2

lemma bucketOf_dvd (t : Int) : (7 : Int) ∣ bucketOf t :=
  dvd_mul_right 7 _

lemma bucketOf_mono {t u : Int} (h : t ≤ u) : bucketOf t ≤ bucketOf u := by
  have := Int.ediv_le_ediv (by norm_num : (0 : Int) < 7)
    (by omega : t + 6 ≤ u + 6)
  simp only [bucketOf]
  omega

lemma sorted_head_le {l : List Int} (hs : List.Sorted (· ≤ ·) l) {a t : Int}
    (ha : l.head? = some a) (ht : t ∈ l) : a ≤ t := by
  cases l with
  | nil => cases ht
  | cons x xs =>
    rw [List.head?_cons, Option.some_inj] at ha
    subst ha
    rcases List.mem_cons.mp ht with rfl | hmem
    · exact le_refl t
    · exact (List.sorted_cons.mp hs).1 t hmem

lemma sorted_le_getLast :
    ∀ {l : List Int}, List.Sorted (· ≤ ·) l → ∀ {a t : Int},
      l.getLast? = some a → t ∈ l → t ≤ a := by
  intro l
  induction l with
  | nil => intro _ a t _ ht; cases ht
  | cons x xs ih =>
    intro hs a t ha ht
    cases xs with
    | nil =>
      rw [List.getLast?_singleton, Option.some_inj] at ha
      rcases List.mem_singleton.mp ht with rfl
      exact le_of_eq ha
    | cons y ys =>
      rw [List.getLast?_cons_cons] at ha
      rcases List.mem_cons.mp ht with rfl | hmem
      · have hamem : a ∈ y :: ys := List.mem_of_getLast?_eq_some ha
        exact (List.sorted_cons.mp hs).1 a hamem
      · exact ih (List.sorted_cons.mp hs).2 ha hmem

lemma mem_buckets_of (tbl : List Record) {t0 t1 b : Int}
    (h0 : (wideTimes tbl).head? = some t0)
    (h1 : (wideTimes tbl).getLast? = some t1)
    (hdvd : (7 : Int) ∣ b) (hlb : bucketOf t0 ≤ b) (hub : b ≤ bucketOf t1) :
    b ∈ buckets tbl := by
  rw [buckets_eq tbl h0 h1]
  simp only [List.mem_map, List.mem_range]
  obtain ⟨k, hk⟩ := hdvd
  obtain ⟨k0, hk0⟩ := bucketOf_dvd t0
  obtain ⟨k1, hk1⟩ := bucketOf_dvd t1
  exact ⟨((b - bucketOf t0) / 7).toNat, by omega, by omega⟩

/-- Bucket labels stepping by the week width form a contiguous chain. -/
lemma chain'_bucketRange (a : Int) (n : Nat) :
    List.Chain' (fun x y => y = x + 7)
      ((List.range n).map (fun i : Nat => a + 7 * (i : Int))) := by
  have hc : List.Chain' (fun i j : Nat => j = i + 1) (List.range n) := by
    cases n with
    | zero => simp
    | succ m => exact (List.chain'_range_succ _ m).mpr (fun k _ => rfl)
  refine List.chain'_map_of_chain' _ ?_ hc
  intro i j hij
  subst hij
  push_cast
  ring

/-- Bucket labels stepping by the week width are strictly increasing. -/
lemma pairwise_lt_bucketRange (a : Int) (n : Nat) :
    List.Pairwise (· < ·) ((List.range n).map (fun i : Nat => a + 7 * (i : Int))) :=
  List.Pairwise.map _ (fun i j hij => by omega) (List.pairwise_lt_range n)

/-- C7: the resampled index is one row per fixed-width bucket — the
bucket labels are contiguous (each is its predecessor plus the week
width), strictly increasing (so one row per bucket), every surviving
timestamp's bucket is present, every week-aligned label between two
occupied buckets is present even if no reading falls in it, and a bucket
containing no source rows has missing values in every column. -/
theorem buckets_contiguous_and_span (tbl : List Record) :
    List.Chain' (fun x y => y = x + 7) (buckets tbl) ∧
    List.Sorted (· < ·) (buckets tbl) ∧
    (∀ t ∈ wideTimes tbl, bucketOf t ∈ buckets tbl) ∧
    (∀ b : Int, (7 : Int) ∣ b → (∃ u ∈ wideTimes tbl, bucketOf u ≤ b) →
      (∃ w ∈ wideTimes tbl, b ≤ bucketOf w) → b ∈ buckets tbl) ∧
    (∀ (b : Int) (s : String), (∀ t ∈ wideTimes tbl, bucketOf t ≠ b) →
      rcell tbl b s = none) := by
  have hempty : ∀ (b : Int) (s : String),
      (∀ t ∈ wideTimes tbl, bucketOf t ≠ b) → rcell tbl b s = none := by
    intro b s h
    have hfil : (wideTimes tbl).filter (fun t => bucketOf t == b) = [] := by
      rw [List.filter_eq_nil_iff]
      intro t ht
      simp only [beq_iff_eq]
      exact h t ht
    simp only [rcell, bucketVals, hfil, List.filterMap_nil, listMean]
  by_cases hne : wideTimes tbl = []
  · have hb : buckets tbl = [] := by simp [buckets, hne]
    exact ⟨by simp [hb], by simp [hb], by simp [hne], by simp [hne], hempty⟩
  · obtain ⟨x, h0⟩ : ∃ x, (wideTimes tbl).head? = some x := by
      cases hh : (wideTimes tbl).head? with
      | none => exact absurd (List.head?_eq_none_iff.mp hh) hne
      | some y => exact ⟨y, rfl⟩
    obtain ⟨t1, h1⟩ : ∃ y, (wideTimes tbl).getLast? = some y := by
      cases hh : (wideTimes tbl).getLast? with
      | none => exact absurd (List.getLast?_eq_none_iff.mp hh) hne
      | some y => exact ⟨y, rfl⟩
    have hsorted : List.Sorted (· ≤ ·) (wideTimes tbl) := by
      simp only [wideTimes]
      exact List.sorted_insertionSort _ _
    refine ⟨?_, ?_, ?_, ?_, hempty⟩
    · rw [buckets_eq tbl h0 h1]
      exact chain'_bucketRange _ _
    · rw [buckets_eq tbl h0 h1]
      exact pairwise_lt_bucketRange _ _
    · intro t htmem
      exact mem_buckets_of tbl h0 h1 (bucketOf_dvd t)
        (bucketOf_mono (sorted_head_le hsorted h0 htmem))
        (bucketOf_mono (sorted_le_getLast hsorted h1 htmem))
    · rintro b hdvd ⟨u, hu, hub⟩ ⟨w, hw, hbw⟩
      exact mem_buckets_of tbl h0 h1 hdvd
        (le_trans (bucketOf_mono (sorted_head_le hsorted h0 hu)) hub)
        (le_trans hbw (bucketOf_mono (sorted_le_getLast hsorted h1 hw)))

/-- Witness for C7: the example's first timestamp has its bucket in the
resampled index. -/
theorem buckets_contiguous_and_span_inst :
    bucketOf 1 ∈ buckets exampleWeek :=
  (buckets_contiguous_and_span exampleWeek).2.2.1 1 (by decide)

lemma perm_cleanTriples {t1 t2 : List Record} (h : t1.Perm t2) :
    (cleanTriples t1).Perm (cleanTriples t2) :=
  List.Perm.filterMap _ (List.Perm.filter _ h)

lemma listMean_congr {v1 v2 : List Rat} (h : v1.Perm v2) :
    listMean v1 = listMean v2 := by
  cases v1 with
  | nil =>
    rw [List.Perm.eq_nil h.symm]
  | cons w ws =>
    cases v2 with
    | nil => exact absurd (List.Perm.eq_nil h) (by simp)
    | cons u us =>
      simp only [listMean]
      rw [List.Perm.sum_eq h, List.Perm.length_eq h]

lemma insertionSort_dedup_congr {α : Type} [LinearOrder α] [DecidableEq α]
    {l1 l2 : List α} (h : l1.Perm l2) :
    List.insertionSort (· ≤ ·) l1.dedup = List.insertionSort (· ≤ ·) l2.dedup :=
  List.eq_of_perm_of_sorted
    ((List.perm_insertionSort _ _).trans
      ((List.Perm.dedup h).trans (List.perm_insertionSort _ _).symm))
    (List.sorted_insertionSort _ _) (List.sorted_insertionSort _ _)

lemma wideTimes_congr {t1 t2 : List Record} (h : t1.Perm t2) :
    wideTimes t1 = wideTimes t2 := by
  simp only [wideTimes]
  exact insertionSort_dedup_congr (List.Perm.map _ (perm_cleanTriples h))

lemma wideCols_congr {t1 t2 : List Record} (h : t1.Perm t2) :
    wideCols t1 = wideCols t2 := by
  simp only [wideCols]
  exact insertionSort_dedup_congr
    (List.Perm.map (fun x : Int × String × Rat => x.2.1) (perm_cleanTriples h))

lemma wideCell_congr {t1 t2 : List Record} (h : t1.Perm t2) :
    wideCell t1 = wideCell t2 := by
  funext t s
  simp only [wideCell, valsAt]
  exact listMean_congr
    (List.Perm.map _ (List.Perm.filter _ (perm_cleanTriples h)))

/-- C4: the pipeline is order-independent — permuting the input rows
yields an identical resampled table (same weekly index, same columns,
same aggregated cells, same derived flag). -/
theorem pipeline_order_independent (t1 t2 : List Record) (h : t1.Perm t2) :
    pipeline t1 = pipeline t2 := by
  have hw : wideTimes t1 = wideTimes t2 := wideTimes_congr h
  have hc : wideCell t1 = wideCell t2 := wideCell_congr h
  have hr : rcell t1 = rcell t2 := by
    funext b s
    simp only [rcell, bucketVals, hw, hc]
  have hhaz : hazardous t1 = hazardous t2 := by
    funext b
    simp only [hazardous, hr]
  simp only [pipeline, buckets, hw, wideCols_congr h, hr, hhaz]

/-- Witness for C4: a shuffle of the example table gives the same
resampled table. -/
theorem pipeline_order_independent_inst :
    pipeline exampleWeek = pipeline exampleWeekShuffled :=
  pipeline_order_independent _ _ (by decide)

end AQ
